import Mathlib

/-!
A shallow embedding of the text preprocessing pipeline of the toxic-text
repository (files `src/preprocessing.py` and
`src/preprocessing/feature_engineering.py`), together with theorems that
check the claims of the specification against it.

Text is modelled as `List Char`.  The regular-expression character classes
are modelled over ASCII: `[a-zA-Z]` is `Char.isAlpha`, and the whitespace
class is the six ASCII whitespace characters recognised by Python's `\s`.
Every function is written structurally recursively so that closed instances
evaluate inside the kernel.
-/

/-- Python's `\s` class over ASCII: space, tab, newline, carriage return,
vertical tab, form feed. -/
def pyIsSpace (c : Char) : Bool :=
  c == ' ' || c == '\t' || c == '\n' || c == '\r' || c == '\x0b' || c == '\x0c'

/-- `u` or `U`, the characters matched by the pattern `u` under `re.IGNORECASE`. -/
def isU (c : Char) : Bool := c == 'u' || c == 'U'

/-- Whether an optional character (a regex lookaround position) is an ASCII letter. -/
def alphaOptB : Option Char → Bool
  | none => false
  | some c => c.isAlpha

/-- Whether the first character of a list is an ASCII letter. -/
def headAlphaB (l : List Char) : Bool := alphaOptB l.head?

/-- Python `str.replace(pat, repl)`: replace every non-overlapping occurrence,
scanning left to right and continuing after each replacement.  The `Nat`
argument is fuel that only forces structural termination; each step consumes
at least one character of the string, so the wrapper `strReplace` passes the
string's length and the fuel never runs out. -/
def strReplaceFuel (pat repl : List Char) : Nat → List Char → List Char
  | _, [] => []
  | 0, s => s
  | fuel + 1, c :: rest =>
    if pat ≠ [] ∧ pat.isPrefixOf (c :: rest) then
      repl ++ strReplaceFuel pat repl fuel ((c :: rest).drop pat.length)
    else
      c :: strReplaceFuel pat repl fuel rest

/-- Python `str.replace(pat, repl)`. -/
def strReplace (pat repl s : List Char) : List Char :=
  strReplaceFuel pat repl s.length s

/-- `re.sub(r'^(http:\/\/www\.|https:\/\/www\.|http:\/\/|https:\/\/).*[\r\n]*', ' ', s)`.
The anchor `^` (without MULTILINE) lets at most one match succeed, at the very
start of the string.  The greedy `.*` consumes every character up to the first
`'\n'` (`.` matches `'\r'` but not `'\n'`), and `[\r\n]*` then consumes the
following run of CR/LF characters; the whole match is replaced by one space. -/
def httpSub (s : List Char) : List Char :=
  if ("http://www.").toList.isPrefixOf s ∨ ("https://www.").toList.isPrefixOf s ∨
      ("http://").toList.isPrefixOf s ∨ ("https://").toList.isPrefixOf s then
    ' ' :: ((s.dropWhile (fun c => c != '\n')).dropWhile (fun c => c == '\r' || c == '\n'))
  else s

/-- Scanner for `re.sub(r'\S*@\S*\s?', ' ', s)`.  A match starting inside a
maximal non-whitespace run exists exactly when the run contains `'@'`; the
greedy pieces then consume the entire run plus one following whitespace
character.  `cur` accumulates the current run in reverse. -/
def emailSubAux (cur : List Char) : List Char → List Char
  | [] => if cur.contains '@' then [' '] else cur.reverse
  | c :: rest =>
    if pyIsSpace c then
      (if cur.contains '@' then [' '] else cur.reverse ++ [c]) ++ emailSubAux [] rest
    else
      emailSubAux (c :: cur) rest

/-- `re.sub(r'\S*@\S*\s?', ' ', s)`. -/
def emailSub (s : List Char) : List Char := emailSubAux [] s

/-- `re.sub(r'(?<![a-z])u(?![a-z])', 'you', s, flags=re.IGNORECASE)`.
`prev` is the character before the current position in the original string
(lookarounds inspect the original string, not the replacement). -/
def uSubAux (prev : Option Char) : List Char → List Char
  | [] => []
  | c :: rest =>
    if isU c && !alphaOptB prev && !headAlphaB rest then
      'y' :: 'o' :: 'u' :: uSubAux (some c) rest
    else
      c :: uSubAux (some c) rest

/-- The standalone-`u` expansion of `Sanitize`. -/
def uSub (s : List Char) : List Char := uSubAux none s

/-- `re.sub(r'[^a-zA-Z!]', ' ', s)` — the character filter of `Sanitize`,
which retains `!`. -/
def charFilterBang (s : List Char) : List Char :=
  s.map fun c => if c.isAlpha || c == '!' then c else ' '

/-- `re.sub(r'[^a-zA-Z]', ' ', s)` — the character filter of
`text_normalization` and `tokenize_single_sentence`. -/
def charFilterPlain (s : List Char) : List Char :=
  s.map fun c => if c.isAlpha then c else ' '

/-- `re.sub(r'\!+', '! ', s)`: each maximal run of `!` becomes `"! "`.
The flag records whether the scanner is inside a run that was already
replaced. -/
def bangSubAux (prevBang : Bool) : List Char → List Char
  | [] => []
  | c :: rest =>
    if c == '!' then
      (if prevBang then [] else ['!', ' ']) ++ bangSubAux true rest
    else
      c :: bangSubAux false rest

/-- `re.sub(r'\!+', '! ', s)`. -/
def bangSub (s : List Char) : List Char := bangSubAux false s

/-- `re.sub(r'\s+', ' ', s)`: each maximal whitespace run becomes a single
space.  The flag records whether the scanner is inside a run that was
already replaced. -/
def wsCollapseAux (prevSpace : Bool) : List Char → List Char
  | [] => []
  | c :: rest =>
    if pyIsSpace c then
      (if prevSpace then [] else [' ']) ++ wsCollapseAux true rest
    else
      c :: wsCollapseAux false rest

/-- `re.sub(r'\s+', ' ', s)`. -/
def wsCollapse (s : List Char) : List Char := wsCollapseAux false s

/-- Remove the trailing whitespace run (the right half of Python `str.strip()`). -/
def rstrip : List Char → List Char
  | [] => []
  | c :: rest =>
    if (rstrip rest).isEmpty && pyIsSpace c then [] else c :: rstrip rest

/-- Python `str.strip()`: remove leading and trailing whitespace. -/
def pyStrip (s : List Char) : List Char := rstrip (s.dropWhile pyIsSpace)

/-- The ASCII case mapping used by Python `str.lower()`; at the point where
both pipelines apply it, only ASCII characters remain, so the table of the
26 uppercase letters is the whole mapping. -/
def pyLowerChar (c : Char) : Char :=
  match c with
  | 'A' => 'a' | 'B' => 'b' | 'C' => 'c' | 'D' => 'd' | 'E' => 'e' | 'F' => 'f'
  | 'G' => 'g' | 'H' => 'h' | 'I' => 'i' | 'J' => 'j' | 'K' => 'k' | 'L' => 'l'
  | 'M' => 'm' | 'N' => 'n' | 'O' => 'o' | 'P' => 'p' | 'Q' => 'q' | 'R' => 'r'
  | 'S' => 's' | 'T' => 't' | 'U' => 'u' | 'V' => 'v' | 'W' => 'w' | 'X' => 'x'
  | 'Y' => 'y' | 'Z' => 'z'
  | c => c

/-- Python `str.lower()`. -/
def lowerStr (s : List Char) : List Char := s.map pyLowerChar

/-- The `Sanitize` transform of `src/preprocessing/feature_engineering.py`
applied to one (non-null) comment string, steps in source order:
NEWLINE_TOKEN / TAB_TOKEN replacement, leading-URL removal, e-mail removal,
standalone-`u` expansion, character filtering keeping `!`, `!`-run collapse,
whitespace collapse and strip, lowercasing. -/
def sanitizeText (s : List Char) : List Char :=
  let s1 := strReplace ("NEWLINE_TOKEN").toList ([' ']) s
  let s2 := strReplace ("TAB_TOKEN").toList ([' ']) s1
  let s3 := httpSub s2
  let s4 := emailSub s3
  let s5 := uSub s4
  let s6 := charFilterBang s5
  let s7 := bangSub s6
  let s8 := pyStrip (wsCollapse s7)
  lowerStr s8

/-- `Sanitize` on one cell of the comment column: `fillna('unk')` turns a
null into the string `"unk"`, which then flows through the pipeline. -/
def sanitizeCell (x : Option (List Char)) : List Char :=
  sanitizeText (x.getD ("unk").toList)

/-- The `text_normalization` transform of `src/preprocessing.py` applied to
one (non-null) comment string, steps in source order: character filtering,
whitespace collapse and strip, removal of the literal substring `"http"`,
lowercasing. -/
def normalizeText (s : List Char) : List Char :=
  let s1 := charFilterPlain s
  let s2 := pyStrip (wsCollapse s1)
  let s3 := strReplace ("http").toList [] s2
  lowerStr s3

/-- `text_normalization` on one cell of the comment column (`fillna('unk')`
first). -/
def normalizeCell (x : Option (List Char)) : List Char :=
  normalizeText (x.getD ("unk").toList)

/-! ### Canonical form of sanitized text

The predicates below characterise the strings produced by `sanitizeText`;
they are what makes re-sanitization the identity. -/

/-- The characters that survive the `Sanitize` character filter. -/
def okChar (c : Char) : Bool := c.isAlpha || c == '!' || c == ' '

/-- A check on every pair of adjacent characters. -/
def pairsOk (P : Char → Char → Bool) : List Char → Bool
  | [] => true
  | [_] => true
  | a :: b :: t => P a b && pairsOk P (b :: t)

/-- No two adjacent spaces. -/
def noDubSpace (s : List Char) : Bool := pairsOk (fun a b => !(a == ' ' && b == ' ')) s

/-- Every `!` is followed by a space or ends the string. -/
def bangOk (s : List Char) : Bool := pairsOk (fun a b => a != '!' || b == ' ') s

/-- The string does not start with a space. -/
def headOk (s : List Char) : Bool := decide (s.head? ≠ some ' ')

/-- The string does not end with a space. -/
def lastOk (s : List Char) : Bool := decide (s.getLast? ≠ some ' ')

/-- Every occurrence of `u`/`U` has an ASCII letter directly before or
after it, so the standalone-`u` pattern cannot match; `prev` is the
character before the current position. -/
def adjUAux (prev : Option Char) : List Char → Bool
  | [] => true
  | c :: rest => (!(isU c) || alphaOptB prev || headAlphaB rest) && adjUAux (some c) rest

/-- No standalone `u`/`U` anywhere in the string. -/
def adjU (s : List Char) : Bool := adjUAux none s

/-- Every character is a fixed point of the lowercase mapping. -/
def lowFix (s : List Char) : Bool := s.all fun c => pyLowerChar c == c

/-- The canonical form shared by all outputs of `sanitizeText`. -/
def canonText (s : List Char) : Bool :=
  s.all okChar && noDubSpace s && bangOk s && headOk s && lastOk s && adjU s && lowFix s

/-- Insert a space after every `!`; on strings satisfying `bangOk` this is
exactly what `bangSub` does. -/
def expandBang : List Char → List Char
  | [] => []
  | c :: rest => if c == '!' then '!' :: ' ' :: expandBang rest else c :: expandBang rest

/-- The trailing space that `expandBang` leaves behind a final `!`. -/
def bangTail (s : List Char) : List Char := if s.getLast? = some '!' then [' '] else []

/-! ## Tokenizer (keras `text.Tokenizer` and `sequence.pad_sequences`) -/

/-- Split a normalized text into its whitespace-separated words; `cur`
accumulates the current word in reverse. -/
def splitWordsAux (cur : List Char) : List Char → List (List Char)
  | [] => if cur.isEmpty then [] else [cur.reverse]
  | c :: rest =>
    if c == ' ' then (if cur.isEmpty then [] else [cur.reverse]) ++ splitWordsAux [] rest
    else splitWordsAux (c :: cur) rest

/-- The words of a text, in order. -/
def splitWords (s : List Char) : List (List Char) := splitWordsAux [] s

/-- Add one occurrence of `w` to a count table kept in first-occurrence order. -/
def bumpCount (w : List Char) : List (List Char × Nat) → List (List Char × Nat)
  | [] => [(w, 1)]
  | (v, k) :: t => if v == w then (v, k + 1) :: t else (v, k) :: bumpCount w t

/-- Modelled from the spec: the vocabulary-construction contract of the keras
`Tokenizer` (an external library, not under `src/`): "builds the Vocabulary
by counting all word occurrences".  Counts every word of every text, in
first-occurrence order. -/
def wordCounts (texts : List (List Char)) : List (List Char × Nat) :=
  ((texts.map splitWords).flatten).foldl (fun acc w => bumpCount w acc) []

/-- The count table sorted stably by descending count. -/
def sortedWordCounts (texts : List (List Char)) : List (List Char × Nat) :=
  (wordCounts texts).insertionSort (fun a b => b.2 ≤ a.2)

/-- Modelled from the spec: the exposed token-to-index mapping — "indices
are dense, ordered by descending corpus frequency, bounded by a configured
maximum size; the index 0 (or an equivalent reserved value) never collides
with a real token".  The top `cap` words receive indices 1, 2, 3, ... -/
def wordIndexPairs (cap : Nat) (texts : List (List Char)) : List (List Char × Nat) :=
  ((sortedWordCounts texts).take cap).enum.map fun p => (p.2.1, p.1 + 1)

/-- Look a word up in a token-to-index mapping. -/
def lookupIdx (vocab : List (List Char × Nat)) (w : List Char) : Option Nat :=
  (vocab.find? (fun p => p.1 == w)).map (·.2)

/-- Modelled from the spec: keras `texts_to_sequences` — "maps each word to
its index (out-of-vocabulary words are dropped, not mapped to an error or
reserved index), producing a TokenSequence per input string". -/
def textsToSequences (vocab : List (List Char × Nat)) (texts : List (List Char)) :
    List (List Nat) :=
  texts.map fun t => (splitWords t).filterMap (lookupIdx vocab)

/-- Modelled from the spec: keras `sequence.pad_sequences` on one row with
target length `L` — "sequences longer than L are truncated (policy: keep the
trailing L tokens — later tokens in a comment are preserved over earlier
ones), sequences shorter than L are left-padded with the reserved padding
index" 0. -/
def padOne (L : Nat) (s : List Nat) : List Nat :=
  if L ≤ s.length then s.drop (s.length - L) else List.replicate (L - s.length) 0 ++ s

/-- Modelled from the spec: keras `sequence.pad_sequences` over all rows. -/
def padSequences (L : Nat) (seqs : List (List Nat)) : List (List Nat) :=
  seqs.map (padOne L)

/-- The state of a `TextPreprocessor` (`src/preprocessing.py`): its
configuration and the fitted tokenizer's token-to-index mapping. -/
structure TextPreprocessor where
  max_nb_words : Nat
  max_padding_length : Nat
  combine_data : Bool
  use_extra_features : Bool
  word_index : List (List Char × Nat)
deriving DecidableEq

/-- `train_tokenizer`: fit the tokenizer on the training text, or on the
training plus test text when `combine_data` is set. -/
def train_tokenizer (pp : TextPreprocessor) (train_data test_data : List (List Char)) :
    TextPreprocessor :=
  if pp.combine_data then
    { pp with word_index := wordIndexPairs pp.max_nb_words (train_data ++ test_data) }
  else
    { pp with word_index := wordIndexPairs pp.max_nb_words train_data }

/-- `tokenize_single_sentence` (`src/preprocessing.py`).  The source passes
the bare string to `texts_to_sequences`, so Python iterates the string and
every single character is treated as one text of its own; and it pads with
`self.max_nb_words`, not `self.max_padding_length`. -/
def tokenize_single_sentence (pp : TextPreprocessor) (sentence : List Char) :
    List (List Nat) :=
  let s1 := charFilterPlain sentence
  let s2 := pyStrip (wsCollapse s1)
  let s3 := lowerStr s2
  let charTexts := s3.map fun c => [c]
  let tokenized := textsToSequences pp.word_index charTexts
  padSequences pp.max_nb_words tokenized

/-- One row of the train/test CSV as used by `load_and_tokenize`: the raw
comment text (possibly null), the label columns selected by `class_list`,
and the auxiliary-score columns. -/
structure TrainRow where
  comment_text : Option (List Char)
  labels : List ℚ
  aux : List ℚ
deriving DecidableEq

/-- A row after `text_normalization` has rewritten the comment column. -/
structure NormRow where
  comment_text : List Char
  labels : List ℚ
  aux : List ℚ
deriving DecidableEq

/-- `text_normalization` over a whole table, cell by cell. -/
def normalizeRows (rows : List TrainRow) : List NormRow :=
  rows.map fun r =>
    { comment_text := normalizeCell r.comment_text, labels := r.labels, aux := r.aux }

/-- Modelled from the spec: `get_sentence` lives in `utils`, which is not
under `src/`.  Per the spec it returns the "Raw text sentence for which to
track attention" and the "Labels for the tracked sentence", i.e. the indexed
row's comment and labels. -/
def get_sentence (i : Nat) (train : List NormRow) : List Char × List ℚ :=
  ((train.get? i).map fun r => (r.comment_text, r.labels)).getD ([], [])

inductive PyRuntimeError where
  | unboundLocalError
deriving DecidableEq

/-- The tuple returned by `load_and_tokenize`. -/
structure TokenizedData where
  X_train : List (List Nat)
  train_aux : Option (List (List ℚ))
  y_train : List (List ℚ)
  X_test : List (List Nat)
  test_aux : Option (List (List ℚ))
  word_index : List (List Char × Nat)
  sample_text : List Char
  sample_target : List ℚ

/-- `load_and_tokenize` (`src/preprocessing.py`).  Reading the CSV files is
external I/O, so the two tables are taken as arguments.  The locals
`sample_text` and `sample_target` are assigned only inside the
`sample_index is not None` branch, yet both return statements read them, so
with `sample_index = None` the return raises `UnboundLocalError`. -/
def load_and_tokenize (pp : TextPreprocessor) (train test : List TrainRow)
    (sample_index : Option Nat) :
    Except PyRuntimeError (TextPreprocessor × TokenizedData) :=
  let trainN := normalizeRows train
  let testN := normalizeRows test
  let sampleVars := sample_index.map fun i => get_sentence i trainN
  let train_comments := trainN.map (·.comment_text)
  let y_train := trainN.map (·.labels)
  let test_comments := testN.map (·.comment_text)
  let train_aux := if pp.use_extra_features then some (trainN.map (·.aux)) else none
  let test_aux := if pp.use_extra_features then some (testN.map (·.aux)) else none
  let pp1 := train_tokenizer pp train_comments test_comments
  let train_tok := textsToSequences pp1.word_index train_comments
  let test_tok := textsToSequences pp1.word_index test_comments
  let X_train := padSequences pp.max_padding_length train_tok
  let X_test := padSequences pp.max_padding_length test_tok
  match sampleVars with
  | some st =>
      .ok (pp1, { X_train := X_train, train_aux := train_aux, y_train := y_train,
                  X_test := X_test, test_aux := test_aux, word_index := pp1.word_index,
                  sample_text := st.1, sample_target := st.2 })
  | none => .error .unboundLocalError

/-! ## Aggregator (`JoinAndSanitize`) -/

/-- One row of an annotation table: the join key and `m` numeric judgment
columns. -/
structure AnnotRow (m : Nat) where
  rev_id : Nat
  scores : Fin m → ℚ

/-- One row of a comment table. -/
structure CmtRow where
  rev_id : Nat
  comment : Option (List Char)
deriving DecidableEq

/-- One row of the output of `JoinAndSanitize`; the scores are `none` when
the id has no annotation rows (a NaN row produced by the left join). -/
structure JoinedRow (m : Nat) where
  rev_id : Nat
  comment : List Char
  scores : Option (Fin m → ℚ)

/-- `annot.groupby(['rev_id']).mean()` looked up at one id: the column-wise
arithmetic mean of that id's annotation rows, or `none` when the id does
not occur in the annotation table. -/
def groupMean {m : Nat} (annot : List (AnnotRow m)) (id : Nat) : Option (Fin m → ℚ) :=
  if (annot.filter fun r => r.rev_id == id).isEmpty then none
  else some fun j =>
    (((annot.filter fun r => r.rev_id == id).map fun r => r.scores j).sum)
      / (annot.filter fun r => r.rev_id == id).length

/-- `JoinAndSanitize` (`src/preprocessing/feature_engineering.py`):
`cmt.set_index('rev_id').join(annot.groupby(['rev_id']).mean())` — a left
join keeping one output row per comment row, in order — followed by
`Sanitize` on the comment column. -/
def JoinAndSanitize {m : Nat} (cmt : List CmtRow) (annot : List (AnnotRow m)) :
    List (JoinedRow m) :=
  cmt.map fun r =>
    { rev_id := r.rev_id, comment := sanitizeCell r.comment,
      scores := groupMean annot r.rev_id }

/-- A pandas dataframe for the purposes of `JoinAndSanitize`: its rows plus
whether the `rev_id` column is present (`set_index` and `groupby` raise a
`KeyError` when it is not). -/
structure PdTable (α : Type) where
  hasRevId : Bool
  rows : List α

inductive PdError where
  | keyError
deriving DecidableEq

/-- `JoinAndSanitize` with pandas' error behaviour: `cmt.set_index('rev_id')`
is evaluated first and raises `KeyError` if `cmt` lacks the column, then
`annot.groupby(['rev_id'])` likewise; the function performs no other
validation, so empty tables that do have the column succeed. -/
def JoinAndSanitizeE {m : Nat} (cmt : PdTable CmtRow) (annot : PdTable (AnnotRow m)) :
    Except PdError (List (JoinedRow m)) :=
  if cmt.hasRevId then
    if annot.hasRevId then .ok (JoinAndSanitize cmt.rows annot.rows)
    else .error .keyError
  else .error .keyError

/-! ## In-place mutation semantics of the two sanitizers (frame claims) -/

/-- A dataframe row with the comment column explicit and every other column
abstracted into a value of type `α`. -/
structure DfRow (α : Type) where
  other : α
  comment : Option (List Char)
deriving DecidableEq

/-- The effect of calling a Python function on a dataframe: the state of the
caller's argument object after the call, and the returned value. -/
structure CallEffect (α β : Type) where
  post : α
  ret : β

/-- The column rewrite `df[comment] = df[comment].apply(...)` chain of
`Sanitize`, as a table-to-table function. -/
def sanitizeDf {α} (df : List (DfRow α)) : List (DfRow α) :=
  df.map fun r => { r with comment := some (sanitizeCell r.comment) }

/-- The column rewrite chain of `text_normalization`. -/
def normalizeDf {α} (df : List (DfRow α)) : List (DfRow α) :=
  df.map fun r => { r with comment := some (normalizeCell r.comment) }

/-- `Sanitize(df)` writes the sanitized column back into `df` itself and
returns `df`: the caller's object is mutated and the return value aliases
it. -/
def SanitizeCall {α} (df : List (DfRow α)) :
    CallEffect (List (DfRow α)) (List (DfRow α)) :=
  { post := sanitizeDf df, ret := sanitizeDf df }

/-- `text_normalization(df)` likewise rewrites the column of `df` in place;
it has no return statement, so it returns `None` and its entire effect is
the mutation of the caller's table. -/
def text_normalization_call {α} (df : List (DfRow α)) :
    CallEffect (List (DfRow α)) Unit :=
  { post := normalizeDf df, ret := () }

/-! ## The shared `Ridge` estimator of `main` -/

/-- Modelled from the spec: the inputs that determine one ridge fit (the
vectorized corpus and the label vector); sklearn's ridge solver (an external
library, not under `src/`) is a deterministic function of them, so a fitted
model is represented by the pair it was last fit on. -/
structure TrainPair where
  features : List (List ℚ)
  labels : List ℚ
deriving DecidableEq

/-- The heap of `Ridge` estimator objects created by `main`: an address is a
position in the list, and the stored value is the data that object was last
fit on (`none` before any fit). -/
structure SkHeap where
  ridgeObjs : List (Option TrainPair)
deriving DecidableEq

/-- `Ridge()` — allocate a fresh unfitted estimator, returning its address. -/
def ridgeNew (h : SkHeap) : SkHeap × Nat :=
  ({ ridgeObjs := h.ridgeObjs ++ [none] }, h.ridgeObjs.length)

/-- `obj.fit(X, y)` — sklearn fits in place and returns `self`: the heap
cell at `addr` is overwritten and the very same address is returned. -/
def ridgeFit (h : SkHeap) (addr : Nat) (d : TrainPair) : SkHeap × Nat :=
  ({ ridgeObjs := h.ridgeObjs.set addr (some d) }, addr)

/-- The fit that `predict` on the object at `addr` would use. -/
def ridgeModelAt (h : SkHeap) (addr : Nat) : Option TrainPair :=
  (h.ridgeObjs.get? addr).getD none

/-- The model-fitting sequence of `main` (`feature_engineering.py`, lines
141-155): a single `ridge = Ridge()` object, then
`model_toxic = ridge.fit(X_toxic, y_toxic)`,
`model_attack = ridge.fit(X_attack, y_attack)`,
`model_aggression = ridge.fit(X_aggression, y_aggression)`.
Returns the final heap and the addresses bound to the three names. -/
def mainFitModels (dToxic dAttack dAggression : TrainPair) : SkHeap × Nat × Nat × Nat :=
  let p1 := ridgeNew { ridgeObjs := [] }
  let ridge := p1.2
  let p2 := ridgeFit p1.1 ridge dToxic
  let p3 := ridgeFit p2.1 ridge dAttack
  let p4 := ridgeFit p3.1 ridge dAggression
  (p4.1, p2.2, p3.2, p4.2)

/-- The fits actually used when `main` goes on to predict the toxic, attack
and aggression scores with `model_toxic`, `model_attack` and
`model_aggression`. -/
def weightsUsed (dT dA dG : TrainPair) :
    Option TrainPair × Option TrainPair × Option TrainPair :=
  let r := mainFitModels dT dA dG
  (ridgeModelAt r.1 r.2.1, ridgeModelAt r.1 r.2.2.1, ridgeModelAt r.1 r.2.2.2)

/-! ## Concrete instances used by the claim theorems -/

/-- The spec's end-to-end sanitization example inputs:
`["I LOVE this!!", None, "http://x.com you are u"]`. -/
def c3Inputs : List (Option (List Char)) :=
  [some (("I LOVE this!!").toList), none, some (("http://x.com you are u").toList)]

/-- A one-comment table for the aggregation witness. -/
def cmtW : List CmtRow := [⟨7, some (("hi there").toList)⟩]

/-- Two annotations with scores 2 and 4 for comment 7 (mean 3). -/
def annotW : List (AnnotRow 1) := [⟨7, fun _ => 2⟩, ⟨7, fun _ => 4⟩]

/-- One annotation for comment 7, used with an empty comment table. -/
def annotCx : List (AnnotRow 1) := [⟨7, fun _ => 1⟩]

/-- A preprocessor with `max_nb_words = 5` and `max_padding_length = 2`,
whose tokenizer knows the single word "a". -/
def pp7 : TextPreprocessor :=
  { max_nb_words := 5, max_padding_length := 2, combine_data := false,
    use_extra_features := true, word_index := [(('a') :: [], 1)] }

/-- An empty comment table that does have the `rev_id` column. -/
def emptyCmtT : PdTable CmtRow := ⟨true, []⟩

/-- An empty annotation table that does have the `rev_id` column. -/
def emptyAnnotT : PdTable (AnnotRow 1) := ⟨true, []⟩

/-- A one-row dataframe whose comment is `"A"`. -/
def df9 : List (DfRow Nat) := [⟨7, some (('A') :: [])⟩]

/-! ## Character-level lemmas -/

theorem pyLowerChar_cases (c : Char) :
    pyLowerChar c = c ∨ (pyLowerChar c).isLower = true := by
  unfold pyLowerChar
  split <;> first | exact Or.inl rfl | exact Or.inr (by decide)

theorem pyLowerChar_of_isLower (d : Char) (h : d.isLower = true) : pyLowerChar d = d := by
  unfold pyLowerChar
  split <;> first | rfl | (exfalso; revert h; decide)

theorem pyLowerChar_idem (c : Char) : pyLowerChar (pyLowerChar c) = pyLowerChar c := by
  rcases pyLowerChar_cases c with h | h
  · rw [h]; exact h
  · exact pyLowerChar_of_isLower _ h

theorem pyLowerChar_space (c : Char) : (pyLowerChar c == ' ') = (c == ' ') := by
  unfold pyLowerChar; split <;> rfl

theorem pyLowerChar_bang (c : Char) : (pyLowerChar c == '!') = (c == '!') := by
  unfold pyLowerChar; split <;> rfl

theorem pyLowerChar_isAlpha (c : Char) : (pyLowerChar c).isAlpha = c.isAlpha := by
  unfold pyLowerChar; split <;> rfl

theorem pyLowerChar_isU (c : Char) : isU (pyLowerChar c) = isU c := by
  unfold pyLowerChar; split <;> rfl

theorem pyLowerChar_okChar (c : Char) : okChar (pyLowerChar c) = okChar c := by
  unfold okChar
  rw [pyLowerChar_isAlpha, pyLowerChar_space, pyLowerChar_bang]

/-! ## Generic list helpers -/

theorem map_eq_self_of_all {f : Char → Char} {p : Char → Bool}
    (hf : ∀ c, p c = true → f c = c) :
    ∀ s : List Char, s.all p = true → s.map f = s := by
  intro s
  induction s with
  | nil => intro _; rfl
  | cons c t ih =>
    intro hs
    rw [List.all_cons, Bool.and_eq_true] at hs
    rw [List.map_cons, hf c hs.1, ih hs.2]

theorem pairsOk_tail {P : Char → Char → Bool} {a : Char} {l : List Char}
    (h : pairsOk P (a :: l) = true) : pairsOk P l = true := by
  cases l with
  | nil => rfl
  | cons b t => exact (Bool.and_eq_true _ _ |>.mp h).2

theorem pairsOk_append_right {P : Char → Char → Bool} :
    ∀ l r : List Char, pairsOk P (l ++ r) = true → pairsOk P r = true := by
  intro l
  induction l with
  | nil => intro r h; exact h
  | cons a l ih => intro r h; exact ih r (pairsOk_tail h)

theorem pairsOk_append_left {P : Char → Char → Bool} :
    ∀ l r : List Char, pairsOk P (l ++ r) = true → pairsOk P l = true := by
  intro l
  induction l with
  | nil => intro _ _; rfl
  | cons a l ih =>
    intro r h
    cases l with
    | nil => rfl
    | cons b t =>
      rw [List.cons_append, List.cons_append, pairsOk, Bool.and_eq_true] at h
      rw [pairsOk, Bool.and_eq_true]
      exact ⟨h.1, ih r h.2⟩

/-! ## Step identities on canonical text -/

theorem strReplaceFuel_eq_self {pat repl : List Char} {ch : Char} (hch : ch ∈ pat) :
    ∀ (fuel : Nat) (s : List Char), ch ∉ s → strReplaceFuel pat repl fuel s = s := by
  intro fuel
  induction fuel with
  | zero => intro s _; cases s <;> rfl
  | succ n ih =>
    intro s hs
    cases s with
    | nil => rfl
    | cons c rest =>
      rw [strReplaceFuel, if_neg, ih rest fun hm => hs (List.mem_cons_of_mem c hm)]
      rintro ⟨-, hpre⟩
      exact hs (( List.isPrefixOf_iff_prefix.mp hpre).subset hch)

theorem strReplace_eq_self {pat repl : List Char} {ch : Char} (hch : ch ∈ pat)
    (s : List Char) (hs : ch ∉ s) : strReplace pat repl s = s :=
  strReplaceFuel_eq_self hch _ s hs

theorem httpSub_eq_self (s : List Char) (hs : ':' ∉ s) : httpSub s = s := by
  rw [httpSub, if_neg]
  rintro (h | h | h | h) <;>
    exact hs (( List.isPrefixOf_iff_prefix.mp h).subset (by decide))

theorem emailSubAux_eq_self :
    ∀ (s cur : List Char), cur.contains '@' = false → '@' ∉ s →
      emailSubAux cur s = cur.reverse ++ s := by
  intro s
  induction s with
  | nil =>
    intro cur hc _
    rw [emailSubAux, if_neg (by rw [hc]; exact Bool.false_ne_true), List.append_nil]
  | cons c rest ih =>
    intro cur hc hs
    have hc' : c ≠ '@' := fun he => hs (he ▸ List.mem_cons_self c rest)
    have hrest : '@' ∉ rest := fun hm => hs (List.mem_cons_of_mem c hm)
    have hcc : (c :: cur).contains '@' = false := by
      rw [List.contains_cons, hc, Bool.or_false, beq_eq_false_iff_ne]
      exact fun h => hc' h.symm
    rw [emailSubAux]
    by_cases hsp : pyIsSpace c = true
    · rw [if_pos hsp, if_neg (by rw [hc]; exact Bool.false_ne_true), ih [] rfl hrest]
      simp
    · rw [if_neg hsp, ih (c :: cur) hcc hrest]
      simp

theorem emailSub_eq_self (s : List Char) (hs : '@' ∉ s) : emailSub s = s := by
  have h := emailSubAux_eq_self s [] rfl hs
  simpa [emailSub] using h

theorem uSubAux_eq_self :
    ∀ (s : List Char) (p : Option Char), adjUAux p s = true → uSubAux p s = s := by
  intro s
  induction s with
  | nil => intro _ _; rfl
  | cons c rest ih =>
    intro p hp
    rw [adjUAux, Bool.and_eq_true] at hp
    rw [uSubAux, if_neg, ih (some c) hp.2]
    intro hcond
    simp only [Bool.and_eq_true, Bool.not_eq_true'] at hcond
    rw [hcond.1.1, hcond.1.2, hcond.2] at hp
    exact Bool.false_ne_true hp.1

theorem charFilterBang_eq_self (s : List Char) (h : s.all okChar = true) :
    charFilterBang s = s := by
  refine map_eq_self_of_all ?_ s h
  intro c hc
  rcases Bool.or_eq_true _ _ |>.mp hc with h1 | h1
  · simp [h1]
  · have : c = ' ' := by exact beq_iff_eq.mp h1
    subst this
    rfl

theorem lowerStr_eq_self (s : List Char) (h : lowFix s = true) : lowerStr s = s :=
  map_eq_self_of_all (fun _ hc => beq_iff_eq.mp hc) s h

theorem okChar_not_space {c : Char} (h : okChar c = true) (hne : (c == ' ') = false) :
    pyIsSpace c = false := by
  cases hps : pyIsSpace c
  · rfl
  · exfalso
    simp only [pyIsSpace, Bool.or_eq_true] at hps
    rcases hps with ((((h1 | h1) | h1) | h1) | h1) | h1 <;>
      rw [beq_iff_eq.mp h1] at h hne <;> revert h hne <;> decide

theorem mem_of_getLast?_eq : ∀ {s : List Char} {c : Char}, s.getLast? = some c → c ∈ s := by
  intro s
  induction s with
  | nil => intro c h; exact Option.noConfusion h
  | cons a t ih =>
    intro c h
    cases t with
    | nil =>
      rw [show ([a] : List Char).getLast? = some a from rfl] at h
      rw [← Option.some_inj.mp h]; exact List.mem_cons_self a []
    | cons b t' =>
      rw [List.getLast?_cons_cons] at h
      exact List.mem_cons_of_mem a (ih h)

theorem expandBang_head (s : List Char) : (expandBang s).head? = s.head? := by
  cases s with
  | nil => rfl
  | cons c r =>
    by_cases hb : (c == '!') = true
    · rw [expandBang, if_pos hb, beq_iff_eq.mp hb]
      rfl
    · rw [expandBang, if_neg hb]
      rfl

theorem wsCollapseAux_agree {l : List Char}
    (h : ∀ c, l.head? = some c → pyIsSpace c = false) :
    wsCollapseAux true l = wsCollapseAux false l := by
  cases l with
  | nil => rfl
  | cons c r =>
    rw [wsCollapseAux, wsCollapseAux, if_neg, if_neg] <;>
      rw [h c rfl] <;> exact Bool.false_ne_true

theorem bangSubAux_expand :
    ∀ s : List Char, bangOk s = true →
      bangSubAux false s = expandBang s ∧
        (s.head? ≠ some '!' → bangSubAux true s = expandBang s) := by
  intro s
  induction s with
  | nil => intro _; exact ⟨rfl, fun _ => rfl⟩
  | cons c rest ih =>
    intro hb
    obtain ⟨ih1, ih2⟩ := ih (pairsOk_tail hb)
    by_cases hc : (c == '!') = true
    · have hceq := beq_iff_eq.mp hc
      subst hceq
      have hhd : rest.head? ≠ some '!' := by
        cases rest with
        | nil => exact fun h => Option.noConfusion h
        | cons d t =>
          have h1 : (((('!' : Char) != '!')) || (d == ' ')) = true :=
            (Bool.and_eq_true _ _ |>.mp hb).1
          rw [show (('!' : Char) != '!') = false from rfl, Bool.false_or] at h1
          rw [List.head?_cons, beq_iff_eq.mp h1]
          intro h2
          exact absurd (Option.some_inj.mp h2) (by decide)
      refine ⟨?_, fun hne => absurd rfl hne⟩
      rw [bangSubAux, if_pos hc, expandBang, if_pos hc, ih2 hhd]
      rfl
    · have he : expandBang (c :: rest) = c :: expandBang rest := by
        rw [expandBang, if_neg hc]
      constructor
      · rw [bangSubAux, if_neg hc, ih1, he]
      · intro _
        rw [bangSubAux, if_neg hc, ih1, he]

theorem bangTail_cons_of_ne {c : Char} {t : List Char} (ht : t ≠ []) :
    bangTail (c :: t) = bangTail t := by
  cases t with
  | nil => exact absurd rfl ht
  | cons d t' => rw [bangTail, bangTail, List.getLast?_cons_cons]

theorem lastOk_cons_of_ne {c : Char} {t : List Char} (ht : t ≠ [])
    (h : lastOk (c :: t) = true) : lastOk t = true := by
  cases t with
  | nil => exact absurd rfl ht
  | cons d t' => rw [lastOk, ← List.getLast?_cons_cons (a := c)]; exact h

theorem bool_eq_false {b : Bool} (h : ¬ b = true) : b = false := by
  cases b
  · rfl
  · exact absurd rfl h

theorem expandBang_cons_bang (r : List Char) :
    expandBang ('!' :: r) = '!' :: ' ' :: expandBang r := by
  simp [expandBang]

theorem expandBang_cons_of_ne {c : Char} (r : List Char) (h : (c == '!') = false) :
    expandBang (c :: r) = c :: expandBang r := by
  rw [expandBang, if_neg]
  rw [h]; exact Bool.false_ne_true

theorem wsCollapseAux_cons_nonspace (b : Bool) {c : Char} (r : List Char)
    (h : pyIsSpace c = false) : wsCollapseAux b (c :: r) = c :: wsCollapseAux false r := by
  rw [wsCollapseAux, if_neg]
  rw [h]; exact Bool.false_ne_true

theorem wsCollapseAux_cons_space_false (r : List Char) :
    wsCollapseAux false (' ' :: r) = ' ' :: wsCollapseAux true r := by
  simp [wsCollapseAux, pyIsSpace]

theorem wsCollapseAux_cons_space_true (r : List Char) :
    wsCollapseAux true (' ' :: r) = wsCollapseAux true r := by
  simp [wsCollapseAux, pyIsSpace]

theorem wsCollapse_expandBang :
    ∀ (n : Nat) (s : List Char), s.length ≤ n →
      s.all okChar = true → noDubSpace s = true → bangOk s = true → lastOk s = true →
      wsCollapseAux false (expandBang s) = s ++ bangTail s := by
  intro n
  induction n with
  | zero =>
    intro s hlen _ _ _ _
    have hs : s = [] := List.length_eq_zero.mp (Nat.le_zero.mp hlen)
    subst hs; rfl
  | succ n ih =>
    intro s hlen hall hnd hb hlo
    cases s with
    | nil => rfl
    | cons c t =>
      rw [List.all_cons, Bool.and_eq_true] at hall
      by_cases hcb : (c == '!') = true
      · -- c = '!'
        have hceq := beq_iff_eq.mp hcb; subst hceq
        cases t with
        | nil => decide
        | cons d t' =>
          -- the bang invariant forces d = ' '
          have h1 : (((('!' : Char) != '!')) || (d == ' ')) = true :=
            (Bool.and_eq_true _ _ |>.mp hb).1
          rw [show (('!' : Char) != '!') = false from rfl, Bool.false_or] at h1
          have hdeq := beq_iff_eq.mp h1; subst hdeq
          -- the string cannot end in the space after the '!'
          cases t' with
          | nil => exact absurd hlo (by decide)
          | cons e t'' =>
            have hte : (e :: t'') ≠ ([] : List Char) := by simp
            -- e is not a space (no double space) and is an okChar
            have hnd1 : noDubSpace (' ' :: e :: t'') = true := pairsOk_tail hnd
            have h2 : (!(((' ' : Char) == ' ') && (e == ' '))) = true :=
              (Bool.and_eq_true _ _ |>.mp hnd1).1
            rw [show ((' ' : Char) == ' ') = true from rfl, Bool.true_and,
              Bool.not_eq_true'] at h2
            have halle : okChar e = true := by
              have h3 := hall.2
              rw [List.all_cons, Bool.and_eq_true] at h3
              have h4 := h3.2
              rw [List.all_cons, Bool.and_eq_true] at h4
              exact h4.1
            have hallt : (e :: t'').all okChar = true := by
              have h3 := hall.2
              rw [List.all_cons, Bool.and_eq_true] at h3
              exact h3.2
            have hesp : pyIsSpace e = false := okChar_not_space halle h2
            have hagree : wsCollapseAux true (expandBang (e :: t''))
                = wsCollapseAux false (expandBang (e :: t'')) := by
              refine wsCollapseAux_agree ?_
              intro x hx
              rw [expandBang_head, List.head?_cons] at hx
              rw [← Option.some_inj.mp hx]; exact hesp
            rw [expandBang_cons_bang, expandBang_cons_of_ne _ (by decide),
              wsCollapseAux_cons_nonspace _ _ (by decide),
              wsCollapseAux_cons_space_false, wsCollapseAux_cons_space_true,
              hagree,
              ih (e :: t'') (by simp at hlen ⊢; omega) hallt
                (pairsOk_tail hnd1) (pairsOk_tail (pairsOk_tail hb))
                (lastOk_cons_of_ne hte (lastOk_cons_of_ne (by simp) hlo)),
              bangTail_cons_of_ne (c := '!') (t := ' ' :: e :: t'') (by simp),
              bangTail_cons_of_ne (c := ' ') (t := e :: t'') hte]
            rfl
      · by_cases hcs : (c == ' ') = true
        · -- c = ' '
          have hceq := beq_iff_eq.mp hcs; subst hceq
          cases t with
          | nil => exact absurd hlo (by decide)
          | cons e t'' =>
            have hte : (e :: t'') ≠ ([] : List Char) := by simp
            have h2 : (!(((' ' : Char) == ' ') && (e == ' '))) = true :=
              (Bool.and_eq_true _ _ |>.mp hnd).1
            rw [show ((' ' : Char) == ' ') = true from rfl, Bool.true_and,
              Bool.not_eq_true'] at h2
            have halle : okChar e = true := by
              have h3 := hall.2
              rw [List.all_cons, Bool.and_eq_true] at h3
              exact h3.1
            have hesp : pyIsSpace e = false := okChar_not_space halle h2
            have hagree : wsCollapseAux true (expandBang (e :: t''))
                = wsCollapseAux false (expandBang (e :: t'')) := by
              refine wsCollapseAux_agree ?_
              intro x hx
              rw [expandBang_head, List.head?_cons] at hx
              rw [← Option.some_inj.mp hx]; exact hesp
            rw [expandBang_cons_of_ne _ (by decide),
              wsCollapseAux_cons_space_false, hagree,
              ih (e :: t'') (by simp at hlen ⊢; omega) hall.2
                (pairsOk_tail hnd) (pairsOk_tail hb) (lastOk_cons_of_ne hte hlo),
              bangTail_cons_of_ne (c := ' ') (t := e :: t'') hte]
            rfl
        · -- c is a letter (not '!', not ' ')
          have hcsp : pyIsSpace c = false := okChar_not_space hall.1 (bool_eq_false hcs)
          rw [expandBang_cons_of_ne _ (bool_eq_false hcb),
            wsCollapseAux_cons_nonspace _ _ hcsp]
          cases t with
          | nil =>
            rw [show wsCollapseAux false (expandBang []) = [] from rfl]
            rw [show bangTail [c] = [] from by
              rw [bangTail, if_neg]
              intro h
              exact absurd (Option.some_inj.mp h)
                (beq_eq_false_iff_ne.mp (bool_eq_false hcb))]
            rfl
          | cons e t'' =>
            have hte : (e :: t'') ≠ ([] : List Char) := by simp
            rw [ih (e :: t'') (by simp at hlen ⊢; omega) hall.2
              (pairsOk_tail hnd) (pairsOk_tail hb) (lastOk_cons_of_ne hte hlo),
              bangTail_cons_of_ne (c := c) (t := e :: t'') hte]
            rfl

theorem rstrip_append_space : ∀ s : List Char, rstrip (s ++ [' ']) = rstrip s := by
  intro s
  induction s with
  | nil => rfl
  | cons c t ih =>
    rw [List.cons_append, rstrip, ih, rstrip]

theorem rstrip_eq_self :
    ∀ s : List Char, (∀ c, s.getLast? = some c → pyIsSpace c = false) → rstrip s = s := by
  intro s
  induction s with
  | nil => intro _; rfl
  | cons c t ih =>
    intro h
    cases t with
    | nil =>
      have hne : ¬((rstrip ([] : List Char)).isEmpty && pyIsSpace c) = true := by
        rw [show (rstrip ([] : List Char)).isEmpty = true from rfl, Bool.true_and, h c rfl]
        exact Bool.false_ne_true
      rw [rstrip, if_neg hne]
      rfl
    | cons d t' =>
      have ht : rstrip (d :: t') = d :: t' :=
        ih fun x hx => h x (by rw [List.getLast?_cons_cons]; exact hx)
      have hne : ¬((rstrip (d :: t')).isEmpty && pyIsSpace c) = true := by
        rw [ht, show (d :: t').isEmpty = false from rfl, Bool.false_and]
        exact Bool.false_ne_true
      rw [rstrip, if_neg hne, ht]

theorem dropWhile_pyIsSpace_eq_self {l : List Char}
    (h : ∀ c, l.head? = some c → pyIsSpace c = false) : l.dropWhile pyIsSpace = l := by
  cases l with
  | nil => rfl
  | cons c r =>
    rw [List.dropWhile_cons, if_neg]
    rw [h c rfl]; exact Bool.false_ne_true

theorem collapseStripBang_eq_self (s : List Char)
    (hall : s.all okChar = true) (hnd : noDubSpace s = true) (hb : bangOk s = true)
    (hho : headOk s = true) (hlo : lastOk s = true) :
    pyStrip (wsCollapse (bangSub s)) = s := by
  have h1 : bangSub s = expandBang s := (bangSubAux_expand s hb).1
  have h2 : wsCollapse (expandBang s) = s ++ bangTail s :=
    wsCollapse_expandBang s.length s le_rfl hall hnd hb hlo
  rw [h1, h2]
  have hlast : ∀ x, s.getLast? = some x → pyIsSpace x = false := by
    intro x hx
    have hmem := mem_of_getLast?_eq hx
    have hok := List.all_eq_true.mp hall x hmem
    refine okChar_not_space hok (beq_eq_false_iff_ne.mpr fun he => ?_)
    exact (of_decide_eq_true hlo) (he ▸ hx)
  cases s with
  | nil => rfl
  | cons c t =>
    have hc : pyIsSpace c = false := by
      have hok : okChar c = true := List.all_eq_true.mp hall c (List.mem_cons_self c t)
      refine okChar_not_space hok (beq_eq_false_iff_ne.mpr fun he => ?_)
      exact (of_decide_eq_true hho) (by rw [List.head?_cons, he])
    rw [pyStrip, show (c :: t) ++ bangTail (c :: t) = c :: (t ++ bangTail (c :: t)) from rfl,
      dropWhile_pyIsSpace_eq_self (fun x hx => by
        rw [List.head?_cons] at hx
        rw [← Option.some_inj.mp hx]; exact hc)]
    rw [show c :: (t ++ bangTail (c :: t)) = (c :: t) ++ bangTail (c :: t) from rfl]
    rw [bangTail]
    by_cases hbt : (c :: t).getLast? = some '!'
    · rw [if_pos hbt, rstrip_append_space, rstrip_eq_self _ hlast]
    · rw [if_neg hbt, List.append_nil, rstrip_eq_self _ hlast]

theorem sanitizeText_eq_self (s : List Char) (h : canonText s = true) : sanitizeText s = s := by
  rw [canonText] at h
  simp only [Bool.and_eq_true] at h
  obtain ⟨⟨⟨⟨⟨⟨hall, hnd⟩, hb⟩, hho⟩, hlo⟩, haj⟩, hlf⟩ := h
  have hnin : ∀ x : Char, okChar x = false → x ∉ s := by
    intro x hx hmem
    rw [List.all_eq_true.mp hall x hmem] at hx
    exact Bool.noConfusion hx
  have e1 : strReplace ("NEWLINE_TOKEN").toList ([' ']) s = s :=
    strReplace_eq_self (show ('_' : Char) ∈ ("NEWLINE_TOKEN").toList from by decide) s
      (hnin '_' (by decide))
  have e2 : strReplace ("TAB_TOKEN").toList ([' ']) s = s :=
    strReplace_eq_self (show ('_' : Char) ∈ ("TAB_TOKEN").toList from by decide) s
      (hnin '_' (by decide))
  have e3 : httpSub s = s := httpSub_eq_self s (hnin ':' (by decide))
  have e4 : emailSub s = s := emailSub_eq_self s (hnin '@' (by decide))
  have e5 : uSub s = s := uSubAux_eq_self s none haj
  have e6 : charFilterBang s = s := charFilterBang_eq_self s hall
  have e7 : pyStrip (wsCollapse (bangSub s)) = s :=
    collapseStripBang_eq_self s hall hnd hb hho hlo
  have e8 : lowerStr s = s := lowerStr_eq_self s hlf
  show lowerStr (pyStrip (wsCollapse (bangSub (charFilterBang (uSub (emailSub (httpSub
    (strReplace ("TAB_TOKEN").toList ([' '])
      (strReplace ("NEWLINE_TOKEN").toList ([' ']) s))))))))) = s
  rw [e1, e2, e3, e4, e5, e6, e7, e8]

/-! ## Forward invariants of the sanitization pipeline -/

theorem space_not_alpha {c : Char} (h : pyIsSpace c = true) : c.isAlpha = false := by
  simp only [pyIsSpace, Bool.or_eq_true] at h
  rcases h with ((((h1 | h1) | h1) | h1) | h1) | h1 <;> rw [beq_iff_eq.mp h1] <;> decide

theorem alpha_not_space {c : Char} (h : c.isAlpha = true) : pyIsSpace c = false := by
  cases hs : pyIsSpace c
  · rfl
  · rw [space_not_alpha hs] at h; exact Bool.noConfusion h

theorem beq_space_false {c : Char} (h : pyIsSpace c = false) : (c == ' ') = false := by
  cases hb : (c == ' ')
  · rfl
  · rw [beq_iff_eq.mp hb] at h; exact Bool.noConfusion h

theorem alpha_beq_bang_false {c : Char} (h : c.isAlpha = true) : (c == '!') = false := by
  cases hb : (c == '!')
  · rfl
  · rw [beq_iff_eq.mp hb] at h; exact Bool.noConfusion h

theorem alpha_of_isU {c : Char} (h : isU c = true) : c.isAlpha = true := by
  rcases Bool.or_eq_true _ _ |>.mp h with h1 | h1 <;> rw [beq_iff_eq.mp h1] <;> decide

theorem pairsOk_cons_intro {P : Char → Char → Bool} {a : Char} {l : List Char}
    (h1 : ∀ x, l.head? = some x → P a x = true) (h2 : pairsOk P l = true) :
    pairsOk P (a :: l) = true := by
  cases l with
  | nil => rfl
  | cons b t =>
    rw [pairsOk, Bool.and_eq_true]
    exact ⟨h1 b rfl, h2⟩

theorem charFilterBang_all (s : List Char) : (charFilterBang s).all okChar = true := by
  rw [List.all_eq_true]
  intro x hx
  simp only [charFilterBang, List.mem_map] at hx
  obtain ⟨c, -, hc⟩ := hx
  by_cases hb : (c.isAlpha || c == '!') = true
  · rw [← hc, if_pos hb, okChar, hb, Bool.true_or]
  · rw [← hc, if_neg hb]; rfl

theorem all_okChar_of_sublist {s t : List Char} (hsub : ∀ x, x ∈ t → x ∈ s)
    (h : s.all okChar = true) : t.all okChar = true := by
  rw [List.all_eq_true] at h ⊢
  exact fun x hx => h x (hsub x hx)

theorem bangSubAux_all {s : List Char} (h : s.all okChar = true) :
    ∀ b, (bangSubAux b s).all okChar = true := by
  induction s with
  | nil => intro b; rfl
  | cons c r ih =>
    intro b
    rw [List.all_cons, Bool.and_eq_true] at h
    by_cases hc : (c == '!') = true
    · rw [bangSubAux, if_pos hc]
      cases b
      · rw [show (if false = true then ([] : List Char) else ['!', ' ']) = ['!', ' '] from rfl]
        rw [List.cons_append, List.cons_append, List.nil_append,
          List.all_cons, List.all_cons, ih h.2 true]
        rfl
      · rw [show (if true = true then ([] : List Char) else ['!', ' ']) = [] from rfl,
          List.nil_append]
        exact ih h.2 true
    · rw [bangSubAux, if_neg hc, List.all_cons, h.1, ih h.2 false]
      rfl

theorem wsCollapseAux_all {s : List Char} (h : s.all okChar = true) :
    ∀ b, (wsCollapseAux b s).all okChar = true := by
  induction s with
  | nil => intro b; rfl
  | cons c r ih =>
    intro b
    rw [List.all_cons, Bool.and_eq_true] at h
    by_cases hc : pyIsSpace c = true
    · rw [wsCollapseAux, if_pos hc]
      cases b
      · rw [show (if false = true then ([] : List Char) else [' ']) = [' '] from rfl,
          List.cons_append, List.nil_append, List.all_cons, ih h.2 true]
        rfl
      · rw [show (if true = true then ([] : List Char) else [' ']) = [] from rfl,
          List.nil_append]
        exact ih h.2 true
    · rw [wsCollapseAux, if_neg hc, List.all_cons, h.1, ih h.2 false]
      rfl

theorem rstrip_sublist : ∀ s : List Char, ∃ t, rstrip s ++ t = s := by
  intro s
  induction s with
  | nil => exact ⟨[], rfl⟩
  | cons c r ih =>
    obtain ⟨u, hu⟩ := ih
    by_cases hc : ((rstrip r).isEmpty && pyIsSpace c) = true
    · exact ⟨c :: r, by rw [rstrip, if_pos hc, List.nil_append]⟩
    · exact ⟨u, by rw [rstrip, if_neg hc, List.cons_append, hu]⟩

theorem lowerStr_all_okChar {s : List Char} (h : s.all okChar = true) :
    (lowerStr s).all okChar = true := by
  rw [List.all_eq_true]
  intro x hx
  simp only [lowerStr, List.mem_map] at hx
  obtain ⟨c, hc, hcx⟩ := hx
  rw [← hcx, pyLowerChar_okChar]
  exact List.all_eq_true.mp h c hc

theorem lowFix_lowerStr (s : List Char) : lowFix (lowerStr s) = true := by
  rw [lowFix, List.all_eq_true]
  intro x hx
  simp only [lowerStr, List.mem_map] at hx
  obtain ⟨c, -, hcx⟩ := hx
  rw [← hcx, pyLowerChar_idem]
  exact beq_self_eq_true _

theorem wsCollapseAux_head_true :
    ∀ (s : List Char) (x : Char), (wsCollapseAux true s).head? = some x →
      pyIsSpace x = false := by
  intro s
  induction s with
  | nil => intro x hx; exact Option.noConfusion hx
  | cons c r ih =>
    intro x hx
    by_cases hc : pyIsSpace c = true
    · rw [wsCollapseAux, if_pos hc,
        show (if true = true then ([] : List Char) else [' ']) = [] from rfl,
        List.nil_append] at hx
      exact ih x hx
    · rw [wsCollapseAux, if_neg hc, List.head?_cons] at hx
      rw [← Option.some_inj.mp hx]; exact bool_eq_false hc

theorem noDubSpace_wsCollapseAux : ∀ (s : List Char) (b : Bool),
    noDubSpace (wsCollapseAux b s) = true := by
  intro s
  induction s with
  | nil => intro b; rfl
  | cons c r ih =>
    intro b
    by_cases hc : pyIsSpace c = true
    · rw [wsCollapseAux, if_pos hc]
      cases b
      · rw [show (if false = true then ([] : List Char) else [' ']) = [' '] from rfl,
          List.cons_append, List.nil_append]
        refine pairsOk_cons_intro ?_ (ih true)
        intro x hx
        have hxs := wsCollapseAux_head_true r x hx
        rw [show ((' ' : Char) == ' ') = true from rfl, Bool.true_and,
          beq_space_false hxs]
        rfl
      · rw [show (if true = true then ([] : List Char) else [' ']) = [] from rfl,
          List.nil_append]
        exact ih true
    · rw [wsCollapseAux, if_neg hc]
      refine pairsOk_cons_intro ?_ (ih false)
      intro x _
      rw [beq_space_false (bool_eq_false hc)]
      rfl

theorem bangOk_bangSubAux : ∀ (s : List Char) (b : Bool),
    bangOk (bangSubAux b s) = true := by
  intro s
  induction s with
  | nil => intro b; rfl
  | cons c r ih =>
    intro b
    by_cases hc : (c == '!') = true
    · rw [bangSubAux, if_pos hc]
      cases b
      · rw [show (if false = true then ([] : List Char) else ['!', ' ']) = ['!', ' ']
          from rfl, List.cons_append, List.cons_append, List.nil_append]
        refine pairsOk_cons_intro (fun x hx => ?_) (pairsOk_cons_intro (fun x _ => rfl)
          (ih true))
        rw [List.head?_cons] at hx
        rw [← Option.some_inj.mp hx]
        rfl
      · rw [show (if true = true then ([] : List Char) else ['!', ' ']) = [] from rfl,
          List.nil_append]
        exact ih true
    · rw [bangSubAux, if_neg hc]
      refine pairsOk_cons_intro (fun x _ => ?_) (ih false)
      rw [show (c != '!') = !(c == '!') from rfl, bool_eq_false hc]
      rfl

theorem wsCollapseAux_head_space {c : Char} (r : List Char) (h : pyIsSpace c = true) :
    (wsCollapseAux false (c :: r)).head? = some ' ' := by
  rw [wsCollapseAux, if_pos h,
    show (if false = true then ([] : List Char) else [' ']) = [' '] from rfl,
    List.cons_append, List.nil_append, List.head?_cons]

theorem bangOk_wsCollapseAux {s : List Char} (h : bangOk s = true) :
    ∀ b, bangOk (wsCollapseAux b s) = true := by
  induction s with
  | nil => intro _; rfl
  | cons c r ih =>
    intro b
    have hr : bangOk r = true := pairsOk_tail h
    by_cases hc : pyIsSpace c = true
    · rw [wsCollapseAux, if_pos hc]
      cases b
      · rw [show (if false = true then ([] : List Char) else [' ']) = [' '] from rfl,
          List.cons_append, List.nil_append]
        exact pairsOk_cons_intro (fun x _ => rfl) (ih hr true)
      · rw [show (if true = true then ([] : List Char) else [' ']) = [] from rfl,
          List.nil_append]
        exact ih hr true
    · rw [wsCollapseAux, if_neg hc]
      refine pairsOk_cons_intro (fun x hx => ?_) (ih hr false)
      by_cases hcb : (c == '!') = true
      · cases r with
        | nil => exact Option.noConfusion hx
        | cons d r' =>
          have h1 : ((c != '!') || (d == ' ')) = true := (Bool.and_eq_true _ _ |>.mp h).1
          rw [show (c != '!') = !(c == '!') from rfl, hcb, Bool.not_true,
            Bool.false_or] at h1
          have hd : pyIsSpace d = true := by rw [beq_iff_eq.mp h1]; rfl
          rw [wsCollapseAux_head_space r' hd] at hx
          rw [← Option.some_inj.mp hx,
            show ((' ' : Char) == ' ') = true from rfl, Bool.or_true]
      · rw [show (c != '!') = !(c == '!') from rfl, bool_eq_false hcb]
        rfl

theorem head_dropWhile_space :
    ∀ (l : List Char) (x : Char), (l.dropWhile pyIsSpace).head? = some x →
      pyIsSpace x = false := by
  intro l
  induction l with
  | nil => intro x hx; exact Option.noConfusion hx
  | cons c r ih =>
    intro x hx
    by_cases hc : pyIsSpace c = true
    · rw [List.dropWhile_cons, if_pos hc] at hx
      exact ih x hx
    · rw [List.dropWhile_cons, if_neg hc, List.head?_cons] at hx
      rw [← Option.some_inj.mp hx]
      exact bool_eq_false hc

theorem rstrip_head_cases (l : List Char) :
    rstrip l = [] ∨ (rstrip l).head? = l.head? := by
  cases l with
  | nil => exact Or.inl rfl
  | cons c r =>
    by_cases hc : ((rstrip r).isEmpty && pyIsSpace c) = true
    · exact Or.inl (by rw [rstrip, if_pos hc])
    · exact Or.inr (by rw [rstrip, if_neg hc, List.head?_cons, List.head?_cons])

theorem rstrip_last_nonspace :
    ∀ (l : List Char) (x : Char), (rstrip l).getLast? = some x → pyIsSpace x = false := by
  intro l
  induction l with
  | nil => intro x hx; exact Option.noConfusion hx
  | cons c r ih =>
    intro x hx
    by_cases hc : ((rstrip r).isEmpty && pyIsSpace c) = true
    · rw [rstrip, if_pos hc] at hx
      exact Option.noConfusion hx
    · rw [rstrip, if_neg hc] at hx
      cases he : rstrip r with
      | nil =>
        rw [he] at hx
        have hcs : pyIsSpace c = false := by
          cases hpc : pyIsSpace c
          · rfl
          · exact absurd (by rw [he, hpc]; rfl) hc
        rw [show ([c] : List Char).getLast? = some c from rfl] at hx
        rw [← Option.some_inj.mp hx]
        exact hcs
      | cons d t =>
        rw [he, List.getLast?_cons_cons] at hx
        exact ih x (by rw [he]; exact hx)

theorem pairsOk_map_pyLower {P : Char → Char → Bool}
    (hP : ∀ a b, P a b = true → P (pyLowerChar a) (pyLowerChar b) = true) :
    ∀ s, pairsOk P s = true → pairsOk P (s.map pyLowerChar) = true := by
  intro s
  induction s with
  | nil => intro _; rfl
  | cons a l ih =>
    intro h
    cases l with
    | nil => rfl
    | cons b t =>
      rw [List.map_cons, List.map_cons, pairsOk, Bool.and_eq_true]
      rw [pairsOk, Bool.and_eq_true] at h
      refine ⟨hP a b h.1, ?_⟩
      have h2 := ih h.2
      rw [List.map_cons] at h2
      exact h2

theorem headOk_lowerStr {s : List Char} (h : headOk s = true) :
    headOk (lowerStr s) = true := by
  refine decide_eq_true fun hcontra => ?_
  rw [lowerStr, List.head?_map] at hcontra
  cases hs : s.head? with
  | none => rw [hs] at hcontra; exact Option.noConfusion hcontra
  | some c =>
    rw [hs] at hcontra
    have hcl : pyLowerChar c = ' ' := Option.some_inj.mp hcontra
    have hcsp : (c == ' ') = true := by
      rw [← pyLowerChar_space, hcl]; rfl
    exact (of_decide_eq_true h) (by rw [hs, beq_iff_eq.mp hcsp])

theorem lastOk_lowerStr {s : List Char} (h : lastOk s = true) :
    lastOk (lowerStr s) = true := by
  refine decide_eq_true fun hcontra => ?_
  rw [lowerStr, List.getLast?_map] at hcontra
  cases hs : s.getLast? with
  | none => rw [hs] at hcontra; exact Option.noConfusion hcontra
  | some c =>
    rw [hs] at hcontra
    have hcl : pyLowerChar c = ' ' := Option.some_inj.mp hcontra
    have hcsp : (c == ' ') = true := by
      rw [← pyLowerChar_space, hcl]; rfl
    exact (of_decide_eq_true h) (by rw [hs, beq_iff_eq.mp hcsp])

/-! ## Preservation of the no-standalone-u invariant -/

theorem adjUAux_congr {p q : Option Char} (h : alphaOptB p = alphaOptB q) :
    ∀ s, adjUAux p s = adjUAux q s := by
  intro s
  cases s with
  | nil => rfl
  | cons c r => rw [adjUAux, adjUAux, h]

theorem adjUAux_cons_intro {p : Option Char} {c : Char} {r : List Char}
    (h1 : (!(isU c) || alphaOptB p || headAlphaB r) = true)
    (h2 : adjUAux (some c) r = true) : adjUAux p (c :: r) = true := by
  rw [adjUAux, Bool.and_eq_true]
  exact ⟨h1, h2⟩

theorem headAlphaB_uSubAux (s : List Char) (p : Option Char) :
    headAlphaB (uSubAux p s) = headAlphaB s := by
  cases s with
  | nil => rfl
  | cons c r =>
    by_cases hg : (isU c && !alphaOptB p && !headAlphaB r) = true
    · rw [uSubAux, if_pos hg]
      have hu : isU c = true := by
        rw [Bool.and_eq_true, Bool.and_eq_true] at hg
        exact hg.1.1
      rw [headAlphaB, List.head?_cons, headAlphaB, List.head?_cons,
        show alphaOptB (some 'y') = true from by decide, alphaOptB, alpha_of_isU hu]
    · rw [uSubAux, if_neg hg, headAlphaB, List.head?_cons, headAlphaB, List.head?_cons]

theorem adjUAux_uSubAux :
    ∀ (s : List Char) (p q : Option Char), alphaOptB q = alphaOptB p →
      adjUAux q (uSubAux p s) = true := by
  intro s
  induction s with
  | nil => intro _ _ _; rfl
  | cons c r ih =>
    intro p q heq
    by_cases hg : (isU c && !alphaOptB p && !headAlphaB r) = true
    · rw [uSubAux, if_pos hg]
      have hgs := hg
      rw [Bool.and_eq_true, Bool.and_eq_true] at hgs
      have hu : isU c = true := hgs.1.1
      refine adjUAux_cons_intro ?_ (adjUAux_cons_intro ?_ (adjUAux_cons_intro ?_ ?_))
      · rw [show (!(isU 'y')) = true from by decide, Bool.true_or, Bool.true_or]
      · rw [show (!(isU 'o')) = true from by decide, Bool.true_or, Bool.true_or]
      · rw [show (!(isU 'u')) = false from by decide, Bool.false_or,
          show alphaOptB (some 'o') = true from by decide, Bool.true_or]
      · exact ih (some c) (some 'u')
          (by rw [alphaOptB, alphaOptB, alpha_of_isU hu]; decide)
    · rw [uSubAux, if_neg hg]
      refine adjUAux_cons_intro ?_ (ih (some c) (some c) rfl)
      by_cases hu : isU c = true
      · have halt : alphaOptB p = true ∨ headAlphaB r = true := by
          cases hh : alphaOptB p
          · cases hh2 : headAlphaB r
            · exact absurd (by rw [hu, hh, hh2]; rfl) hg
            · exact Or.inr rfl
          · exact Or.inl rfl
        rcases halt with h1 | h1
        · rw [heq, h1, Bool.or_true, Bool.true_or]
        · rw [headAlphaB_uSubAux, h1, Bool.or_true]
      · have : (!(isU c)) = true := by rw [bool_eq_false hu]; rfl
        rw [this, Bool.true_or, Bool.true_or]

theorem adjUAux_map {g : Char → Char} (hU : ∀ c, isU (g c) = isU c)
    (hA : ∀ c, (g c).isAlpha = c.isAlpha) :
    ∀ (s : List Char) (p q : Option Char), alphaOptB q = alphaOptB p →
      adjUAux p s = true → adjUAux q (s.map g) = true := by
  intro s
  induction s with
  | nil => intro _ _ _ _; rfl
  | cons c r ih =>
    intro p q heq h
    rw [adjUAux, Bool.and_eq_true] at h
    rw [List.map_cons]
    refine adjUAux_cons_intro ?_
      (ih (some c) (some (g c)) (by rw [alphaOptB, alphaOptB, hA]) h.2)
    have hhead : headAlphaB (r.map g) = headAlphaB r := by
      rw [headAlphaB, headAlphaB, List.head?_map]
      cases r.head? with
      | none => rfl
      | some d =>
        rw [show Option.map g (some d) = some (g d) from rfl, alphaOptB, alphaOptB, hA]
    rw [hU, heq, hhead]
    exact h.1

theorem adjUAux_bangSubAux :
    ∀ (s : List Char) (b : Bool) (p q : Option Char), alphaOptB q = alphaOptB p →
      (b = true → alphaOptB q = false) → adjUAux p s = true →
      adjUAux q (bangSubAux b s) = true := by
  intro s
  induction s with
  | nil => intro _ _ _ _ _ _; rfl
  | cons c r ih =>
    intro b p q heq hb h
    rw [adjUAux, Bool.and_eq_true] at h
    by_cases hc : (c == '!') = true
    · rw [bangSubAux, if_pos hc]
      have hcalpha : alphaOptB (some c) = false := by
        rw [alphaOptB, beq_iff_eq.mp hc]; decide
      cases b
      · rw [show (if false = true then ([] : List Char) else ['!', ' ']) = ['!', ' ']
          from rfl, List.cons_append, List.cons_append, List.nil_append]
        refine adjUAux_cons_intro
          (by rw [show (!(isU '!')) = true from by decide, Bool.true_or, Bool.true_or])
          (adjUAux_cons_intro
            (by rw [show (!(isU ' ')) = true from by decide, Bool.true_or, Bool.true_or])
            ?_)
        exact ih true (some c) (some ' ')
          (by rw [show alphaOptB (some ' ') = false from by decide, hcalpha])
          (fun _ => by decide) h.2
      · rw [show (if true = true then ([] : List Char) else ['!', ' ']) = [] from rfl,
          List.nil_append]
        exact ih true (some c) q (by rw [hb rfl, hcalpha]) hb h.2
    · rw [bangSubAux, if_neg hc]
      have hhead : headAlphaB r = true → headAlphaB (bangSubAux false r) = true := by
        intro hh
        cases r with
        | nil => exact Bool.noConfusion hh
        | cons d r' =>
          rw [headAlphaB, List.head?_cons, alphaOptB] at hh
          have hd : (d == '!') = false := alpha_beq_bang_false hh
          rw [bangSubAux, if_neg (by rw [hd]; exact Bool.false_ne_true),
            headAlphaB, List.head?_cons, alphaOptB]
          exact hh
      refine adjUAux_cons_intro ?_
        (ih false (some c) (some c) rfl (fun hf => Bool.noConfusion hf) h.2)
      rcases Bool.or_eq_true _ _ |>.mp h.1 with h2 | h2
      · rcases Bool.or_eq_true _ _ |>.mp h2 with h3 | h3
        · rw [h3, Bool.true_or, Bool.true_or]
        · rw [heq, h3, Bool.or_true, Bool.true_or]
      · rw [hhead h2, Bool.or_true]

theorem adjUAux_wsCollapseAux :
    ∀ (s : List Char) (b : Bool) (p q : Option Char), alphaOptB q = alphaOptB p →
      (b = true → alphaOptB q = false) → adjUAux p s = true →
      adjUAux q (wsCollapseAux b s) = true := by
  intro s
  induction s with
  | nil => intro _ _ _ _ _ _; rfl
  | cons c r ih =>
    intro b p q heq hb h
    rw [adjUAux, Bool.and_eq_true] at h
    by_cases hc : pyIsSpace c = true
    · have hcalpha : alphaOptB (some c) = false := by
        rw [alphaOptB, space_not_alpha hc]
      rw [wsCollapseAux, if_pos hc]
      cases b
      · rw [show (if false = true then ([] : List Char) else [' ']) = [' '] from rfl,
          List.cons_append, List.nil_append]
        refine adjUAux_cons_intro
          (by rw [show (!(isU ' ')) = true from by decide, Bool.true_or, Bool.true_or])
          ?_
        exact ih true (some c) (some ' ')
          (by rw [show alphaOptB (some ' ') = false from by decide, hcalpha])
          (fun _ => by decide) h.2
      · rw [show (if true = true then ([] : List Char) else [' ']) = [] from rfl,
          List.nil_append]
        exact ih true (some c) q (by rw [hb rfl, hcalpha]) hb h.2
    · rw [wsCollapseAux, if_neg hc]
      have hhead : headAlphaB r = true → headAlphaB (wsCollapseAux false r) = true := by
        intro hh
        cases r with
        | nil => exact Bool.noConfusion hh
        | cons d r' =>
          rw [headAlphaB, List.head?_cons, alphaOptB] at hh
          rw [wsCollapseAux,
            if_neg (by rw [alpha_not_space hh]; exact Bool.false_ne_true),
            headAlphaB, List.head?_cons, alphaOptB]
          exact hh
      refine adjUAux_cons_intro ?_
        (ih false (some c) (some c) rfl (fun hf => Bool.noConfusion hf) h.2)
      rcases Bool.or_eq_true _ _ |>.mp h.1 with h2 | h2
      · rcases Bool.or_eq_true _ _ |>.mp h2 with h3 | h3
        · rw [h3, Bool.true_or, Bool.true_or]
        · rw [heq, h3, Bool.or_true, Bool.true_or]
      · rw [hhead h2, Bool.or_true]

theorem adjUAux_dropWhile :
    ∀ (s : List Char) (p : Option Char), alphaOptB p = false → adjUAux p s = true →
      adjUAux p (s.dropWhile pyIsSpace) = true := by
  intro s
  induction s with
  | nil => intro _ _ _; rfl
  | cons c r ih =>
    intro p hp h
    rw [adjUAux, Bool.and_eq_true] at h
    by_cases hc : pyIsSpace c = true
    · rw [List.dropWhile_cons, if_pos hc]
      have hca : alphaOptB (some c) = false := by rw [alphaOptB, space_not_alpha hc]
      rw [adjUAux_congr (p := p) (q := some c) (by rw [hp, hca]) (r.dropWhile pyIsSpace)]
      exact ih (some c) hca h.2
    · rw [List.dropWhile_cons, if_neg hc]
      rw [adjUAux, Bool.and_eq_true]
      exact h

theorem headAlphaB_rstrip {t : List Char} (h : headAlphaB t = true) :
    headAlphaB (rstrip t) = true := by
  cases t with
  | nil => exact Bool.noConfusion h
  | cons d t' =>
    rw [headAlphaB, List.head?_cons, alphaOptB] at h
    have hd : pyIsSpace d = false := alpha_not_space h
    have hcond : ¬((rstrip t').isEmpty && pyIsSpace d) = true := by
      rw [hd, Bool.and_false]; exact Bool.false_ne_true
    rw [rstrip, if_neg hcond, headAlphaB, List.head?_cons, alphaOptB]
    exact h

theorem adjUAux_rstrip :
    ∀ (s : List Char) (p : Option Char), adjUAux p s = true →
      adjUAux p (rstrip s) = true := by
  intro s
  induction s with
  | nil => intro _ _; rfl
  | cons c r ih =>
    intro p h
    rw [adjUAux, Bool.and_eq_true] at h
    by_cases hc : ((rstrip r).isEmpty && pyIsSpace c) = true
    · rw [rstrip, if_pos hc]; rfl
    · rw [rstrip, if_neg hc]
      refine adjUAux_cons_intro ?_ (ih (some c) h.2)
      rcases Bool.or_eq_true _ _ |>.mp h.1 with h2 | h2
      · rcases Bool.or_eq_true _ _ |>.mp h2 with h3 | h3
        · rw [h3, Bool.true_or, Bool.true_or]
        · rw [h3, Bool.or_true, Bool.true_or]
      · rw [headAlphaB_rstrip h2, Bool.or_true]

theorem filterBang_isU (c : Char) :
    isU (if c.isAlpha || c == '!' then c else ' ') = isU c := by
  by_cases hb : (c.isAlpha || c == '!') = true
  · rw [if_pos hb]
  · rw [if_neg hb]
    cases hu : isU c
    · decide
    · exact absurd (by rw [alpha_of_isU hu]; rfl) hb

theorem filterBang_isAlpha (c : Char) :
    (if c.isAlpha || c == '!' then c else ' ').isAlpha = c.isAlpha := by
  by_cases hb : (c.isAlpha || c == '!') = true
  · rw [if_pos hb]
  · rw [if_neg hb]
    cases ha : c.isAlpha
    · decide
    · exact absurd (by rw [ha]; rfl) hb

theorem canonText_pipeline (v : List Char) :
    canonText (lowerStr (rstrip
      ((wsCollapse (bangSub (charFilterBang (uSub v)))).dropWhile pyIsSpace))) = true := by
  have hadj5 : adjUAux none (uSub v) = true := adjUAux_uSubAux v none none rfl
  have hall6 : (charFilterBang (uSub v)).all okChar = true := charFilterBang_all (uSub v)
  have hadj6 : adjUAux none (charFilterBang (uSub v)) = true :=
    adjUAux_map filterBang_isU filterBang_isAlpha (uSub v) none none rfl hadj5
  have hall7 : (bangSub (charFilterBang (uSub v))).all okChar = true :=
    bangSubAux_all hall6 false
  have hbo7 : bangOk (bangSub (charFilterBang (uSub v))) = true :=
    bangOk_bangSubAux (charFilterBang (uSub v)) false
  have hadj7 : adjUAux none (bangSub (charFilterBang (uSub v))) = true :=
    adjUAux_bangSubAux (charFilterBang (uSub v)) false none none rfl
      (fun hf => Bool.noConfusion hf) hadj6
  set z7 := bangSub (charFilterBang (uSub v)) with hz7
  have hall8w : (wsCollapse z7).all okChar = true := wsCollapseAux_all hall7 false
  have hnd8w : noDubSpace (wsCollapse z7) = true := noDubSpace_wsCollapseAux z7 false
  have hbo8w : bangOk (wsCollapse z7) = true := bangOk_wsCollapseAux hbo7 false
  have hadj8w : adjUAux none (wsCollapse z7) = true :=
    adjUAux_wsCollapseAux z7 false none none rfl (fun hf => Bool.noConfusion hf) hadj7
  set z8w := wsCollapse z7 with hz8w
  set z8d := z8w.dropWhile pyIsSpace with hz8d
  have hdec := List.takeWhile_append_dropWhile pyIsSpace z8w
  have hall8d : z8d.all okChar = true :=
    all_okChar_of_sublist (fun x hx => (List.dropWhile_suffix pyIsSpace).subset hx) hall8w
  have hnd8d : noDubSpace z8d = true :=
    pairsOk_append_right _ _ (by rw [hdec]; exact hnd8w)
  have hbo8d : bangOk z8d = true :=
    pairsOk_append_right _ _ (by rw [hdec]; exact hbo8w)
  have hadj8d : adjUAux none z8d = true := adjUAux_dropWhile z8w none rfl hadj8w
  obtain ⟨u, hu⟩ := rstrip_sublist z8d
  have hall8 : (rstrip z8d).all okChar = true :=
    all_okChar_of_sublist (fun x hx => hu ▸ List.mem_append_left u hx) hall8d
  have hnd8 : noDubSpace (rstrip z8d) = true :=
    pairsOk_append_left _ u (by rw [hu]; exact hnd8d)
  have hbo8 : bangOk (rstrip z8d) = true :=
    pairsOk_append_left _ u (by rw [hu]; exact hbo8d)
  have hadj8 : adjUAux none (rstrip z8d) = true := adjUAux_rstrip z8d none hadj8d
  have hho8 : headOk (rstrip z8d) = true := by
    refine decide_eq_true fun hcontra => ?_
    rcases rstrip_head_cases z8d with he | he
    · rw [he] at hcontra
      exact Option.noConfusion hcontra
    · rw [he] at hcontra
      have := head_dropWhile_space z8w ' ' hcontra
      exact Bool.noConfusion this
  have hlo8 : lastOk (rstrip z8d) = true := by
    refine decide_eq_true fun hcontra => ?_
    have := rstrip_last_nonspace z8d ' ' hcontra
    exact Bool.noConfusion this
  rw [canonText]
  simp only [Bool.and_eq_true]
  refine ⟨⟨⟨⟨⟨⟨lowerStr_all_okChar hall8, ?_⟩, ?_⟩, headOk_lowerStr hho8⟩,
    lastOk_lowerStr hlo8⟩, ?_⟩, lowFix_lowerStr _⟩
  · exact pairsOk_map_pyLower
      (fun a b hab => by
        rw [show ((pyLowerChar a == ' ' && pyLowerChar b == ' ')) =
          ((a == ' ') && (b == ' ')) from by rw [pyLowerChar_space, pyLowerChar_space]]
        exact hab) _ hnd8
  · exact pairsOk_map_pyLower
      (fun a b hab => by
        rw [show (pyLowerChar a != '!') = (a != '!') from by
          rw [show (pyLowerChar a != '!') = !(pyLowerChar a == '!') from rfl,
            pyLowerChar_bang]; rfl,
          pyLowerChar_space]
        exact hab) _ hbo8
  · exact adjUAux_map pyLowerChar_isU pyLowerChar_isAlpha _ none none rfl hadj8

theorem canonText_sanitizeText (x : List Char) : canonText (sanitizeText x) = true :=
  canonText_pipeline
    (emailSub (httpSub (strReplace ("TAB_TOKEN").toList ([' '])
      (strReplace ("NEWLINE_TOKEN").toList ([' ']) x))))

theorem sanitizeText_idem (x : List Char) :
    sanitizeText (sanitizeText x) = sanitizeText x :=
  sanitizeText_eq_self _ (canonText_sanitizeText x)

/-! ## Claim theorems -/

/-- C2 (counterexample): the claim asserts idempotence "for both sanitization
implementations", but `text_normalization` maps `"HTTP"` to `"http"` (the
literal `"http"` removal runs before lowercasing), and re-applying it then
yields `""`. -/
theorem claim_C2_counterexample :
    (normalizeText (normalizeText (("HTTP").toList)) == normalizeText (("HTTP").toList))
      = false := by decide

/-- C2 (amended): the `Sanitize` implementation of
`feature_engineering.py` is idempotent on every input, while the
`text_normalization` implementation of `preprocessing.py` is not (it fails
on `"HTTP"`). -/
theorem claim_C2 :
    (∀ s : List Char, sanitizeText (sanitizeText s) = sanitizeText s)
    ∧ (normalizeText (normalizeText (("HTTP").toList)) == normalizeText (("HTTP").toList))
        = false :=
  ⟨sanitizeText_idem, by decide⟩

/-- C3 (counterexample): on `"http://x.com you are u"` neither implementation
returns `"you are you"`: `Sanitize`'s anchored URL pattern consumes the whole
line (`.*`), and `text_normalization` only deletes the literal substring
`"http"`, after whitespace collapse. -/
theorem claim_C3_counterexample :
    (sanitizeCell (some (("http://x.com you are u").toList)) == ("you are you").toList)
      = false
    ∧ (normalizeCell (some (("http://x.com you are u").toList)) == ("you are you").toList)
        = false := by decide

/-- C3 (amended): on the spec's example inputs, `text_normalization` yields
`["i love this", "unk", " x com you are u"]` (the `"http"` substring is
removed after whitespace collapse, leaving a leading space, and `u` is not
expanded), while `Sanitize` (which keeps `"!"`) yields
`["i love this!", "unk", ""]` (a leading URL consumes the entire line). -/
theorem claim_C3 :
    c3Inputs.map normalizeCell
      = [("i love this").toList, ("unk").toList, (" x com you are u").toList]
    ∧ c3Inputs.map sanitizeCell
        = [("i love this!").toList, ("unk").toList, []] := by decide

/-- C10: with `sample_index = None` (the default), both return statements of
`load_and_tokenize` read the locals `sample_text` / `sample_target`, which
are assigned only in the `sample_index is not None` branch, so the call
never produces a result: it raises `UnboundLocalError`. -/
theorem claim_C10 :
    ∀ (pp : TextPreprocessor) (train test : List TrainRow),
      load_and_tokenize pp train test none = .error .unboundLocalError :=
  fun _ _ _ => rfl

/-- C1: `main` creates a single `Ridge()` object and refits it in place; the
three names `model_toxic`, `model_attack`, `model_aggression` all alias the
same address, and at prediction time all three use the fit of the LAST call,
`(X_aggression, y_aggression)` — the fits are neither per-label, nor
immutable, nor order-independent. -/
theorem claim_C1 :
    ∀ dT dA dG : TrainPair,
      (mainFitModels dT dA dG).2.1 = (mainFitModels dT dA dG).2.2.1
      ∧ (mainFitModels dT dA dG).2.2.1 = (mainFitModels dT dA dG).2.2.2
      ∧ weightsUsed dT dA dG = (some dG, some dG, some dG) :=
  fun _ _ _ => ⟨rfl, rfl, rfl⟩

/-- C7: `tokenize_single_sentence` passes the raw string to
`texts_to_sequences`, so each character becomes its own row, and pads with
`max_nb_words` (here 5) instead of `max_padding_length` (here 2): the claim
that the result is one sequence of length `max_padding_length` fails. -/
theorem claim_C7 :
    tokenize_single_sentence pp7 (('a') :: ('b') :: [])
      = [[0, 0, 0, 0, 1], [0, 0, 0, 0, 0]]
    ∧ (tokenize_single_sentence pp7 (('a') :: ('b') :: [])).map List.length = [5, 5]
    ∧ pp7.max_padding_length = 2 ∧ pp7.max_nb_words = 5 := by decide

/-- C8 (counterexample): with both tables empty but carrying the join key,
`JoinAndSanitize` succeeds and returns an empty result — it does not fail on
empty input as the claim requires. -/
theorem claim_C8_counterexample :
    emptyCmtT.rows = [] ∧ emptyAnnotT.rows = []
    ∧ JoinAndSanitizeE emptyCmtT emptyAnnotT = .ok [] :=
  ⟨rfl, rfl, rfl⟩

/-- C8 (amended): `JoinAndSanitize` performs no validation of its own: it
raises only the pandas `KeyError` of `set_index`/`groupby`, exactly when a
table lacks the `rev_id` column (no `InputShapeError` exists), and empty
tables that have the column succeed with an empty result. -/
theorem claim_C8 :
    (∀ (m : Nat) (r1 : List CmtRow) (r2 : List (AnnotRow m)),
      JoinAndSanitizeE ⟨true, r1⟩ ⟨true, r2⟩ = .ok (JoinAndSanitize r1 r2))
    ∧ (∀ (m : Nat) (r1 : List CmtRow) (r2 : List (AnnotRow m)),
        JoinAndSanitizeE ⟨false, r1⟩ ⟨true, r2⟩ = .error .keyError)
    ∧ (∀ (m : Nat) (r1 : List CmtRow) (r2 : List (AnnotRow m)),
        JoinAndSanitizeE ⟨true, r1⟩ ⟨false, r2⟩ = .error .keyError)
    ∧ (∀ (m : Nat) (r1 : List CmtRow) (r2 : List (AnnotRow m)),
        JoinAndSanitizeE ⟨false, r1⟩ ⟨false, r2⟩ = .error .keyError)
    ∧ JoinAndSanitizeE emptyCmtT emptyAnnotT = .ok [] :=
  ⟨fun _ _ _ => rfl, fun _ _ _ => rfl, fun _ _ _ => rfl, fun _ _ _ => rfl, rfl⟩

/-- C9 (counterexample): both sanitizers mutate the caller's table in place:
after the call the argument object differs from its pre-call state
(`text_normalization` even returns `None`, so mutation is its only effect). -/
theorem claim_C9_counterexample :
    ((text_normalization_call df9).post == df9) = false
    ∧ ((SanitizeCall df9).post == df9) = false := by decide

/-- C9 (amended): `Sanitize(df)` mutates `df` in place and returns the very
same (mutated) table, and `text_normalization(df)` mutates in place and
returns `None`; in the mutated table every column other than the comment
column, and the row order and row count, are unchanged. -/
theorem claim_C9 :
    ∀ {α : Type} (df : List (DfRow α)),
      (SanitizeCall df).ret = (SanitizeCall df).post
      ∧ ((SanitizeCall df).post).map (fun r => r.other) = df.map (fun r => r.other)
      ∧ ((SanitizeCall df).post).length = df.length
      ∧ (text_normalization_call df).ret = ()
      ∧ ((text_normalization_call df).post).map (fun r => r.other)
          = df.map (fun r => r.other)
      ∧ ((text_normalization_call df).post).length = df.length := by
  intro α df
  refine ⟨rfl, ?_, ?_, rfl, ?_, ?_⟩
  · rw [show (SanitizeCall df).post = sanitizeDf df from rfl, sanitizeDf, List.map_map]
    rfl
  · rw [show (SanitizeCall df).post = sanitizeDf df from rfl, sanitizeDf,
      List.length_map]
  · rw [show (text_normalization_call df).post = normalizeDf df from rfl, normalizeDf,
      List.map_map]
    rfl
  · rw [show (text_normalization_call df).post = normalizeDf df from rfl, normalizeDf,
      List.length_map]

/-- C4: every padded/truncated row has length exactly `L`; the first
`L - |s|` entries are padding zeros and the remainder is the trailing part
of `s` (for a long row, its last `L` tokens); with the spec's examples. -/
theorem claim_C4 :
    (∀ (L : Nat) (s : List Nat),
      (padOne L s).length = L
      ∧ (padOne L s).take (L - s.length) = List.replicate (L - s.length) 0
      ∧ (padOne L s).drop (L - s.length) = s.drop (s.length - L))
    ∧ (∀ (L : Nat) (seqs : List (List Nat)),
        (padSequences L seqs).map List.length = seqs.map fun _ => L)
    ∧ padOne 4 [5, 6, 7, 8, 9] = [6, 7, 8, 9]
    ∧ padOne 4 [5] = [0, 0, 0, 5] := by
  have hlen : ∀ (L : Nat) (s : List Nat), (padOne L s).length = L := by
    intro L s
    by_cases h : L ≤ s.length
    · simp only [padOne]
      rw [if_pos h, List.length_drop, Nat.sub_sub_self h]
    · simp only [padOne]
      rw [if_neg h, List.length_append, List.length_replicate,
        Nat.sub_add_cancel (Nat.le_of_lt (Nat.lt_of_not_le h))]
  refine ⟨?_, ?_, by decide, by decide⟩
  · intro L s
    refine ⟨hlen L s, ?_, ?_⟩
    · by_cases h : L ≤ s.length
      · have h0 : L - s.length = 0 := Nat.sub_eq_zero_of_le h
        rw [h0, List.take_zero, List.replicate_zero]
      · simp only [padOne]
        rw [if_neg h]
        exact List.take_left' (List.length_replicate _ _)
    · by_cases h : L ≤ s.length
      · have h0 : L - s.length = 0 := Nat.sub_eq_zero_of_le h
        simp only [padOne]
        rw [h0, if_pos h, List.drop_zero]
      · have h0 : s.length - L = 0 :=
          Nat.sub_eq_zero_of_le (Nat.le_of_lt (Nat.lt_of_not_le h))
        simp only [padOne]
        rw [h0, if_neg h, List.drop_zero]
        exact List.drop_left' (List.length_replicate _ _)
  · intro L seqs
    rw [padSequences, List.map_map]
    exact List.map_congr_left fun s _ => hlen L s

/-- C5 (counterexample): comment id 7 appears once in the annotation table,
yet with a comment table not containing id 7 (here: empty) the output has no
row for id 7 at all — not "exactly one row". -/
theorem claim_C5_counterexample :
    (annotCx.filter fun r => r.rev_id == 7).length = 1
    ∧ ((JoinAndSanitize ([] : List CmtRow) annotCx).filter
        fun r => r.rev_id == 7).length = 0 :=
  ⟨rfl, rfl⟩

/-- C5 (amended): for a comment id that appears exactly once in the comment
table and at least once in the annotation table, the output of
`JoinAndSanitize` has exactly one row for that id, and its score in every
judgment column is the arithmetic mean of that id's annotation values. -/
theorem claim_C5 {m : Nat} (cmt : List CmtRow) (annot : List (AnnotRow m)) (id : Nat)
    (h1 : (cmt.filter fun r => r.rev_id == id).length = 1)
    (h2 : 0 < (annot.filter fun r => r.rev_id == id).length) :
    ((JoinAndSanitize cmt annot).filter fun r => r.rev_id == id).length = 1
    ∧ ∀ r ∈ (JoinAndSanitize cmt annot).filter fun r => r.rev_id == id,
        r.scores = some fun j =>
          ((annot.filter fun r => r.rev_id == id).map fun r => r.scores j).sum
            / (annot.filter fun r => r.rev_id == id).length := by
  have hfm : ((JoinAndSanitize cmt annot).filter fun r => r.rev_id == id)
      = (cmt.filter fun r => r.rev_id == id).map
          (fun r => { rev_id := r.rev_id, comment := sanitizeCell r.comment,
                      scores := groupMean annot r.rev_id }) := by
    rw [JoinAndSanitize, List.filter_map]
    rfl
  constructor
  · rw [hfm, List.length_map]
    exact h1
  · intro r hr
    rw [hfm, List.mem_map] at hr
    obtain ⟨c, hc, hcr⟩ := hr
    rw [List.mem_filter] at hc
    have hceq : c.rev_id = id := beq_iff_eq.mp hc.2
    rw [← hcr]
    show groupMean annot c.rev_id = _
    have hne : ¬((annot.filter fun r => r.rev_id == id).isEmpty = true) := by
      rw [List.isEmpty_iff]
      intro he
      rw [he] at h2
      exact Nat.lt_irrefl 0 h2
    rw [hceq, groupMean, if_neg hne]

/-- C5 (witness): comment 7 with annotations 2 and 4; the hypotheses hold
and the aggregated output carries their mean. -/
theorem claim_C5_witness :
    ((cmtW.filter fun r => r.rev_id == 7).length = 1
      ∧ 0 < (annotW.filter fun r => r.rev_id == 7).length)
    ∧ (((JoinAndSanitize cmtW annotW).filter fun r => r.rev_id == 7).length = 1
       ∧ ∀ r ∈ (JoinAndSanitize cmtW annotW).filter fun r => r.rev_id == 7,
          r.scores = some fun j =>
            ((annotW.filter fun r => r.rev_id == 7).map fun r => r.scores j).sum
              / (annotW.filter fun r => r.rev_id == 7).length) :=
  ⟨⟨rfl, by decide⟩, claim_C5 cmtW annotW 7 rfl (by decide)⟩

instance : IsTotal (List Char × Nat) fun a b => b.2 ≤ a.2 :=
  ⟨fun a b => Nat.le_total b.2 a.2⟩

instance : IsTrans (List Char × Nat) fun a b => b.2 ≤ a.2 :=
  ⟨fun _ _ _ h1 h2 => Nat.le_trans h2 h1⟩

/-- C6: the token-to-index mapping has at most `cap` entries; its indices
are exactly 1, 2, ..., so they are dense and no token maps to the reserved
padding index 0; entries are ordered by descending corpus frequency; and the
spec's example corpus with cap 3 yields `a↦1, b↦2, c↦3`. -/
theorem claim_C6 :
    (∀ (cap : Nat) (texts : List (List Char)), (wordIndexPairs cap texts).length ≤ cap)
    ∧ (∀ (cap : Nat) (texts : List (List Char)),
        (wordIndexPairs cap texts).map (fun p => p.2)
          = List.range' 1 (wordIndexPairs cap texts).length)
    ∧ (∀ (cap : Nat) (texts : List (List Char)),
        List.Chain' (fun a b => b.2 ≤ a.2) ((sortedWordCounts texts).take cap))
    ∧ (∀ (cap : Nat) (texts : List (List Char)),
        (wordIndexPairs cap texts).all (fun p => decide (0 < p.2)) = true)
    ∧ wordIndexPairs 3 [("a a a").toList, ("b b").toList, ("c").toList]
        = [(("a").toList, 1), (("b").toList, 2), (("c").toList, 3)] := by
  refine ⟨?_, ?_, ?_, ?_, by decide⟩
  · intro cap texts
    simp only [wordIndexPairs]
    rw [List.length_map, List.enum_length]
    exact List.length_take_le cap _
  · intro cap texts
    simp only [wordIndexPairs]
    rw [List.map_map, List.length_map, List.enum_length]
    have hcomp : ((fun p : List Char × Nat => p.2) ∘
        (fun p : Nat × (List Char × Nat) => (p.2.1, p.1 + 1)))
        = fun p : Nat × (List Char × Nat) => p.1 + 1 := rfl
    rw [hcomp]
    have h1 : (((sortedWordCounts texts).take cap).enum.map
          fun p : Nat × (List Char × Nat) => p.1 + 1)
        = (((sortedWordCounts texts).take cap).enum.map Prod.fst).map (· + 1) := by
      rw [List.map_map]
      rfl
    rw [h1, List.enum_map_fst, List.range'_eq_map_range]
    exact List.map_congr_left fun a _ => Nat.add_comm a 1
  · intro cap texts
    have hs : List.Sorted (fun a b : List Char × Nat => b.2 ≤ a.2)
        (sortedWordCounts texts) := by
      simp only [sortedWordCounts]
      exact List.sorted_insertionSort _ _
    exact (List.Pairwise.sublist (List.take_sublist cap _) hs).chain'
  · intro cap texts
    rw [List.all_eq_true]
    intro p hp
    simp only [wordIndexPairs, List.mem_map] at hp
    obtain ⟨q, -, hq⟩ := hp
    rw [← hq]
    exact decide_eq_true (Nat.succ_pos q.1)
